import Mathlib

/-
Verification of the literature-monitoring pipeline in src/main.py.

The embedding below translates the pure core of the pipeline into Lean:
timestamps are modelled as integers (seconds; only their order matters),
Python strings as Lean strings (lowercasing is modelled on ASCII, which is
what both the fingerprint rule and the regex in normalize_title depend on),
and the optional LLM client as a boolean together with an oracle function
giving each call's outcome. Config values are passed explicitly.
-/

namespace ResearchFollow

/-- Paper record, from the dataclass Paper in main.py (lines 23-38).
The summary field is omitted: no claim mentions it. -/
structure Paper where
  title : String
  authors : List String := []
  journal : String := ""
  link : String := ""
  abstract : String := ""
  published : Int := 0
  source : String := ""
  source_group : String := ""
  doi : Option String := none
  keyword_hits : Int := 0
  group_hits : Int := 0
  relevance_score : Option Int := none
  relevance_reason : Option String := none
  deriving Repr, DecidableEq

/-- Model of the Python str.lower() method, on ASCII letters. -/
def pyLower (s : String) : String :=
  String.mk (s.data.map Char.toLower)

/-- Model of the Python str.strip() method: drop leading and trailing
whitespace. -/
def pyStrip (s : String) : String :=
  String.mk (((s.data.dropWhile Char.isWhitespace).reverse.dropWhile
      Char.isWhitespace).reverse)

/-- Characters kept by the regex substitution in normalize_title:
lower-case ASCII letters and ASCII digits. -/
def keptChar (c : Char) : Bool :=
  c.isLower || c.isDigit

/-- normalize_title (main.py lines 67-70): lowercase the title, then delete
every character outside a-z and 0-9 (the re.sub with the complement
character class replaced by the empty string). -/
def normalize_title (title : String) : String :=
  String.mk ((pyLower title).data.filter keptChar)

/-- Fingerprint of a paper, from the body of dedupe (main.py lines 182-186)
and, identically, the state-update loop (lines 586-590): a truthy doi
(present and non-empty) yields the doi key, lowercased then stripped;
otherwise the normalized-title key. -/
def fingerprint (p : Paper) : String :=
  match p.doi with
  | some d => if d = "" then "title:" ++ normalize_title p.title
              else "doi:" ++ pyStrip (pyLower d)
  | none => "title:" ++ normalize_title p.title

/-- Loop of dedupe (main.py lines 181-190): seen starts as the persisted
set and grows with each kept fingerprint; a paper whose fingerprint is
falsy or already seen is skipped. -/
def dedupeAux (seen : List String) : List Paper → List Paper
  | [] => []
  | p :: ps =>
    if fingerprint p = "" ∨ fingerprint p ∈ seen then dedupeAux seen ps
    else p :: dedupeAux (fingerprint p :: seen) ps

/-- dedupe (main.py lines 178-191). -/
def dedupe (papers : List Paper) (sent_ids : List String) : List Paper :=
  dedupeAux sent_ids papers

/-- Rephrasing of the dedupe output used by claim C3: keep a paper exactly
when its fingerprint is neither previously sent nor carried by any earlier
paper of the input (first occurrence kept; later holders are filtered
away). -/
def dedupeSpec (sent : List String) : List Paper → List Paper
  | [] => []
  | p :: ps =>
    if fingerprint p ∈ sent then dedupeSpec sent ps
    else p :: dedupeSpec sent
      (ps.filter (fun q => fingerprint q != fingerprint p))
termination_by l => l.length
decreasing_by
  · simp only [List.length_cons]
    omega
  · simp only [List.length_cons]
    exact Nat.lt_succ_of_le
      (List.length_filter_le (fun q => fingerprint q != fingerprint p) ps)

/-- filter_by_date (main.py lines 194-195): keep papers with
published at or after start. -/
def filter_by_date (papers : List Paper) (start : Int) : List Paper :=
  papers.filter (fun p => decide (start ≤ p.published))

/-- Window start computation in main (main.py lines 458-465): the parsed
last_run when the state field is present, truthy and parseable (the
argument is then some t), else now minus lookback hours (config default
36); timedelta hours are converted to seconds. -/
def window_start_of (last_run_parsed : Option Int) (now_utc : Int)
    (lookback_hours : Option Int) : Int :=
  match last_run_parsed with
  | some t => t
  | none => now_utc - 3600 * lookback_hours.getD 36

/-- Lowercased alphanumeric character sequence of a string. Two titles
differ only in punctuation, case or spacing exactly when these sequences
agree, so this expresses the collapse relation of the fingerprint claim. -/
def coreChars (s : String) : List Char :=
  (s.data.map Char.toLower).filter keptChar

/-- Model of the Python substring test (the in operator) on lists. -/
def subListOf (needle : List Char) : List Char → Bool
  | [] => needle.isEmpty
  | a :: rest => needle.isPrefixOf (a :: rest) || subListOf needle rest

/-- Model of the Python substring test (the in operator) on strings. -/
def substrOf (needle hay : String) : Bool :=
  subListOf needle.data hay.data

/-- keyword_score (main.py lines 198-204): number of configured keywords
found, case-insensitively, in the text; each keyword counts once. -/
def keyword_score (text : String) (keywords : List String) : Int :=
  keywords.foldl
    (fun score kw =>
      if substrOf (pyLower kw) (pyLower text) then score + 1 else score) 0

/-- group_score (main.py lines 207-218): number of groups whose any-list
has at least one keyword found in the text; a group counts once. -/
def group_score (text : String) (groups : List (List String)) : Int :=
  groups.foldl
    (fun matched g =>
      if g.any (fun kw => substrOf (pyLower kw) (pyLower text))
      then matched + 1 else matched) 0

/-- should_exclude_title (main.py lines 221-228): the trimmed lowercased
title starts with one of the configured excluded title openings. -/
def should_exclude_title (title : String) (exclStarts : List String) : Bool :=
  exclStarts.any
    (fun s => (pyLower s).isPrefixOf (pyLower (pyStrip title)))

/-- Annotation and exclusion loop of main (main.py lines 488-499): skip
excluded titles, set keyword_hits and group_hits from the title-abstract
text, drop papers matching an exclusion keyword. -/
def annotate_stage (keywords : List String) (groups : List (List String))
    (exclStarts : List String) (exclKws : List String) :
    List Paper → List Paper
  | [] => []
  | p :: ps =>
    if should_exclude_title p.title exclStarts then
      annotate_stage keywords groups exclStarts exclKws ps
    else if exclKws.any (fun k =>
        substrOf (pyLower k) (pyLower (p.title ++ " " ++ p.abstract))) then
      annotate_stage keywords groups exclStarts exclKws ps
    else
      { p with
          keyword_hits :=
            keyword_score (p.title ++ " " ++ p.abstract) keywords,
          group_hits :=
            group_score (p.title ++ " " ++ p.abstract) groups }
        :: annotate_stage keywords groups exclStarts exclKws ps

/-- Minimum-hit threshold stage of main (main.py lines 501-504): keep a
paper when its keyword_hits reach min_hits or no keywords are configured;
then, only when min_groups is positive, additionally require group_hits
to reach min_groups. -/
def min_hits_stage (keywords : List String) (min_hits min_groups : Int)
    (papers : List Paper) : List Paper :=
  let ps := papers.filter
    (fun p => decide (min_hits ≤ p.keyword_hits) || keywords.isEmpty)
  if 0 < min_groups then
    ps.filter (fun p => decide (min_groups ≤ p.group_hits))
  else ps

/-- Stable descending insertion: place p after every earlier element with a
key at least as large, modelling the stability of the Python list sort
with reverse set. -/
def insert_desc (key : Paper → Int) (p : Paper) : List Paper → List Paper
  | [] => [p]
  | q :: qs => if key q ≤ key p then p :: q :: qs
               else q :: insert_desc key p qs

/-- Stable descending sort by an integer key, modelling the Python list
sort with a key function and reverse set (main.py lines 522 and 546). -/
def sort_desc (key : Paper → Int) : List Paper → List Paper
  | [] => []
  | p :: ps => insert_desc key p (sort_desc key ps)

/-- Assignment of a successful LLM relevance result (main.py lines
533-534): the integer conversion of the score field of the reply, zero
when absent, stored without any clamping, and the reason string. -/
def apply_relevance (p : Paper) (score : Option Int) (reason : String) :
    Paper :=
  { p with relevance_score := some (score.getD 0),
           relevance_reason := some reason }

/-- LLM relevance loop of main (main.py lines 527-536): the first max_eval
papers each get one call; a successful reply sets the two fields through
apply_relevance, a failed call leaves the paper unchanged. The oracle
gives each call's outcome. -/
def llm_stage (oracle : Paper → Option (Option Int × String))
    (max_eval : Nat) (papers : List Paper) : List Paper :=
  (papers.take max_eval).map
    (fun p =>
      match oracle p with
      | some (s, r) => apply_relevance p s r
      | none => p)
    ++ papers.drop max_eval

/-- Source-weight lookup (main.py line 543): dictionary get with default
zero, modelled on an association list. -/
def weight_of (sw : List (String × Int)) (g : String) : Int :=
  match sw.find? (fun x => x.1 == g) with
  | some x => x.2
  | none => 0

/-- final_score (main.py lines 541-544): the relevance score when set,
else keyword_hits, plus the source-group weight. -/
def final_score (sw : List (String × Int)) (p : Paper) : Int :=
  p.relevance_score.getD p.keyword_hits + weight_of sw p.source_group

/-- Final ranking, threshold and truncation of main (main.py lines
546-550): sort descending by final_score; when a client is in use and a
positive minimum LLM score is configured, keep only papers whose
relevance score (zero when unset or zero) reaches it; truncate to
max_papers. -/
def select_final (sw : List (String × Int)) (client : Bool)
    (min_llm_score : Int) (max_papers : Nat) (papers : List Paper) :
    List Paper :=
  (if client = true ∧ 0 < min_llm_score then
    (sort_desc (final_score sw) papers).filter
      (fun p => decide (min_llm_score ≤ p.relevance_score.getD 0))
  else sort_desc (final_score sw) papers).take max_papers

/-- Filter and ranking configuration values read from the config mapping
in main (main.py lines 483-487, 501, 529, 540, 547, 550). -/
structure Config where
  keywords : List String := []
  groups : List (List String) := []
  min_keyword_hits : Int := 1
  min_groups_matched : Int := 0
  excl_title_starts : List String := []
  excl_keywords : List String := []
  max_llm_eval : Nat := 30
  max_papers : Nat := 10
  min_relevance_score : Int := 0
  source_weight : List (String × Int) := []

/-- Candidate list entering the keyword-filter stages (main.py lines
480-481): the window filter is applied to the aggregated papers first,
then the deduplicator. -/
def candidate_list (papers : List Paper) (sent : List String) (ws : Int) :
    List Paper :=
  dedupe (filter_by_date papers ws) sent

/-- Modelled from the spec control-flow sentence, for the refinement
comparison of claim C2: Deduplicator before Filter, so the window filter
is applied to the output of the deduplicator on the raw aggregate. -/
def candidate_list_spec_order (papers : List Paper) (sent : List String)
    (ws : Int) : List Paper :=
  filter_by_date (dedupe papers sent) ws

/-- Whole selection pipeline of main (main.py lines 480-550): window
filter, dedupe, annotation and exclusion, minimum-hit thresholds,
keyword-hits ordering, optional LLM relevance pass, final ranking and
truncation. -/
def run_pipeline (cfg : Config) (client : Bool)
    (oracle : Paper → Option (Option Int × String))
    (papers : List Paper) (sent : List String) (ws : Int) : List Paper :=
  let cand := candidate_list papers sent ws
  let ann := annotate_stage cfg.keywords cfg.groups cfg.excl_title_starts
    cfg.excl_keywords cand
  let thr := min_hits_stage cfg.keywords cfg.min_keyword_hits
    cfg.min_groups_matched ann
  let ord := sort_desc (fun p => p.keyword_hits) thr
  let scored := if client then llm_stage oracle cfg.max_llm_eval ord else ord
  select_final cfg.source_weight client cfg.min_relevance_score
    cfg.max_papers scored

/-- Python slice keeping the last n elements of a list. -/
def lastN (n : Nat) (l : List α) : List α :=
  (l.reverse.take n).reverse

/-- Persisted run state (main.py lines 46-50): last_run ISO string or
null, and the sent fingerprint list. -/
structure RunState where
  last_run : Option String := none
  sent_ids : List String := []
  deriving Repr, DecidableEq

/-- Observable outcome of the tail of a run: whether an email was sent
and the state passed to save_state, none when save_state is not called. -/
structure RunOutcome where
  email_sent : Bool
  saved : Option RunState
  deriving Repr, DecidableEq

/-- Sent-fingerprint update of main (main.py lines 585-591): append each
emitted fingerprint, keep the last 5000 entries. -/
def update_sent_ids (prev : List String) (fps : List String) :
    List String :=
  lastN 5000 (prev ++ fps)

/-- Stored fingerprint list after a sequence of non-dry runs starting
from the empty default state, each run appending its emitted
fingerprints. -/
def sent_ids_after_runs (runs : List (List String)) : List String :=
  runs.foldl update_sent_ids []

/-- Tail of main (main.py lines 507-520 and 574-593): the zero-papers
branch and the normal branch; email is sent unless the no-email or
dry-run flag is set, save_state runs with updated state unless the
dry-run flag is set. -/
def finish_run (dry_run no_email : Bool) (st : RunState) (now_iso : String)
    (papers : List Paper) : RunOutcome :=
  if papers.isEmpty then
    { email_sent := !no_email && !dry_run,
      saved := if dry_run then none
               else some { last_run := some now_iso,
                           sent_ids := st.sent_ids } }
  else
    { email_sent := !no_email && !dry_run,
      saved := if dry_run then none
               else some { last_run := some now_iso,
                           sent_ids := update_sent_ids st.sent_ids
                             (papers.map fingerprint) } }

/-- Sample paper with a doi needing trimming and lowercasing. -/
def paperDoi : Paper := { title := "Any", doi := some (" 10.1/ABC ") }

/-- Sample paper without doi, punctuated title. -/
def paperT1 : Paper := { title := "Deep-Learning, for GRID Resilience!" }

/-- Sample paper without doi, plain title. -/
def paperT2 : Paper := { title := "deep learning for grid resilience" }

/-- Sample paper published before the sample window start. -/
def pEarly : Paper := { title := "same title", published := 0 }

/-- Sample paper with the same fingerprint, published inside the
window. -/
def pLate : Paper := { title := "same title", published := 10 }

theorem normalize_title_eq_core (s : String) :
    normalize_title s = String.mk (coreChars s) := rfl

/-- Claim C1: the deduplication fingerprint is doi-colon followed by the
lowercased, trimmed doi when the doi field is present and non-empty, and
otherwise title-colon followed by the lowercased title with every
non-alphanumeric character removed; hence two no-doi papers whose titles
differ only in punctuation, case or spacing get the same fingerprint. -/
theorem C1_fingerprint_rule (p q r : Paper) :
    (∀ d : String, p.doi = some d → d ≠ "" →
      fingerprint p = "doi:" ++ pyStrip (pyLower d))
    ∧ (p.doi = none ∨ p.doi = some "" →
      fingerprint p = "title:" ++ normalize_title p.title)
    ∧ (q.doi = none → r.doi = none → coreChars q.title = coreChars r.title →
      fingerprint q = fingerprint r) := by
  refine ⟨?_, ?_, ?_⟩
  · intro d hd hne
    simp [fingerprint, hd, hne]
  · rintro (h | h) <;> simp [fingerprint, h]
  · intro hq hr hcore
    simp only [fingerprint, hq, hr, normalize_title_eq_core, hcore]

/-- Witness for C1 at concrete papers. -/
theorem C1_fingerprint_rule_witness :
    fingerprint paperDoi = "doi:" ++ pyStrip (pyLower (" 10.1/ABC "))
    ∧ fingerprint paperT1 = fingerprint paperT2 :=
  ⟨(C1_fingerprint_rule paperDoi paperT1 paperT2).1 (" 10.1/ABC ") rfl
      (by decide),
   (C1_fingerprint_rule paperDoi paperT1 paperT2).2.2 rfl rfl (by decide)⟩

/-- Claim C4: the time-window filter keeps exactly the papers whose
published time is at least the window start (boundary inclusive), and the
window start is the parsed last_run when available, else now minus the
configured lookback hours, defaulting to 36 hours. -/
theorem C4_time_window (papers : List Paper) (start : Int)
    (now lb t : Int) (lbc : Option Int) :
    (∀ p : Paper,
      p ∈ filter_by_date papers start ↔ p ∈ papers ∧ start ≤ p.published)
    ∧ window_start_of (some t) now lbc = t
    ∧ window_start_of none now (some lb) = now - 3600 * lb
    ∧ window_start_of none now none = now - 3600 * 36 := by
  refine ⟨?_, rfl, rfl, rfl⟩
  intro p
  simp [filter_by_date, List.mem_filter]

/-- Witness for C4: boundary paper kept, earlier paper dropped, default
lookback window. -/
theorem C4_time_window_witness :
    ({ title := "b", published := 5 } : Paper) ∈
      filter_by_date [{ title := "a", published := 4 },
        { title := "b", published := 5 }] 5
    ∧ window_start_of none 1000 none = 1000 - 3600 * 36 :=
  ⟨((C4_time_window [{ title := "a", published := 4 },
        { title := "b", published := 5 }] 5 1000 0 0 none).1
      ({ title := "b", published := 5 })).mpr (by decide),
   (C4_time_window [] 5 1000 0 0 none).2.2.2⟩

theorem fingerprint_ne_empty (p : Paper) : fingerprint p ≠ "" := by
  have key : ∀ a s : String, a.length ≠ 0 → a ++ s ≠ "" := by
    intro a s ha h
    have hl := congrArg String.length h
    rw [String.length_append] at hl
    have h0 : ("" : String).length = 0 := rfl
    omega
  cases hd : p.doi with
  | none =>
    simp only [fingerprint, hd]
    exact key ("title:") _ (by decide)
  | some d =>
    simp only [fingerprint, hd]
    by_cases hde : d = ""
    · rw [if_pos hde]
      exact key ("title:") _ (by decide)
    · rw [if_neg hde]
      exact key ("doi:") _ (by decide)

theorem dedupeAux_sublist (seen : List String) (ps : List Paper) :
    List.Sublist (dedupeAux seen ps) ps := by
  induction ps generalizing seen with
  | nil => exact List.Sublist.refl []
  | cons p ps ih =>
    rw [dedupeAux]
    by_cases h : fingerprint p = "" ∨ fingerprint p ∈ seen
    · rw [if_pos h]
      exact (ih seen).trans (List.sublist_cons_self p ps)
    · rw [if_neg h]
      exact (ih _).cons₂ p

theorem mem_dedupeAux_not_seen {seen : List String} {ps : List Paper}
    {p : Paper} (hp : p ∈ dedupeAux seen ps) : fingerprint p ∉ seen := by
  induction ps generalizing seen with
  | nil => simp [dedupeAux] at hp
  | cons q qs ih =>
    rw [dedupeAux] at hp
    by_cases h : fingerprint q = "" ∨ fingerprint q ∈ seen
    · rw [if_pos h] at hp
      exact ih hp
    · rw [if_neg h] at hp
      rcases List.mem_cons.mp hp with heq | hp2
      · subst heq
        push_neg at h
        exact h.2
      · have h2 := ih hp2
        exact fun hc => h2 (List.mem_cons_of_mem _ hc)

theorem dedupeAux_map_nodup (seen : List String) (ps : List Paper) :
    ((dedupeAux seen ps).map fingerprint).Nodup := by
  induction ps generalizing seen with
  | nil => simp [dedupeAux]
  | cons q qs ih =>
    rw [dedupeAux]
    by_cases h : fingerprint q = "" ∨ fingerprint q ∈ seen
    · rw [if_pos h]
      exact ih seen
    · rw [if_neg h]
      simp only [List.map_cons, List.nodup_cons]
      refine ⟨?_, ih _⟩
      intro hmem
      rcases List.mem_map.mp hmem with ⟨r, hr, hfr⟩
      exact mem_dedupeAux_not_seen hr
        (by rw [hfr]; exact List.mem_cons_self _ _)

theorem dedupeAux_self (l : List Paper) (seen : List String)
    (hfree : ∀ p ∈ l, fingerprint p ∉ seen)
    (hnd : (l.map fingerprint).Nodup) : dedupeAux seen l = l := by
  induction l generalizing seen with
  | nil => rfl
  | cons p ps ih =>
    have hp : fingerprint p ∉ seen := hfree p (List.mem_cons_self _ _)
    rw [dedupeAux,
      if_neg (by rintro (h | h); exacts [fingerprint_ne_empty p h, hp h])]
    simp only [List.map_cons, List.nodup_cons, List.mem_map] at hnd
    congr 1
    apply ih
    · intro q hq hc
      rcases List.mem_cons.mp hc with heq | hin
      · exact hnd.1 ⟨q, hq, heq⟩
      · exact hfree q (List.mem_cons_of_mem _ hq) hin
    · exact hnd.2

theorem dedupeAux_congr_seen {s1 s2 : List String}
    (h : ∀ x, x ∈ s1 ↔ x ∈ s2) (ps : List Paper) :
    dedupeAux s1 ps = dedupeAux s2 ps := by
  induction ps generalizing s1 s2 with
  | nil => rfl
  | cons q qs ih =>
    rw [dedupeAux, dedupeAux]
    have hiff : (fingerprint q = "" ∨ fingerprint q ∈ s1) ↔
        (fingerprint q = "" ∨ fingerprint q ∈ s2) :=
      or_congr Iff.rfl (h _)
    by_cases hq : fingerprint q = "" ∨ fingerprint q ∈ s1
    · rw [if_pos hq, if_pos (hiff.mp hq)]
      exact ih h
    · rw [if_neg hq, if_neg (fun hc => hq (hiff.mpr hc))]
      congr 1
      exact ih (fun x => by
        simp only [List.mem_cons]
        exact or_congr Iff.rfl (h x))

theorem dedupeAux_cons_seen (f : String) (seen : List String)
    (ps : List Paper) :
    dedupeAux (f :: seen) ps =
      dedupeAux seen (ps.filter (fun q => fingerprint q != f)) := by
  induction ps generalizing seen with
  | nil => rfl
  | cons q qs ih =>
    by_cases hqf : fingerprint q = f
    · have hb : (fingerprint q != f) = false := by simp [hqf]
      rw [List.filter_cons, hb]
      simp only [Bool.false_eq_true, if_false]
      rw [dedupeAux,
        if_pos (Or.inr (by rw [hqf]; exact List.mem_cons_self _ _))]
      exact ih seen
    · have hb : (fingerprint q != f) = true := by simp [hqf]
      rw [List.filter_cons, hb]
      simp only [if_true]
      rw [dedupeAux, dedupeAux]
      have hiff : (fingerprint q = "" ∨ fingerprint q ∈ f :: seen) ↔
          (fingerprint q = "" ∨ fingerprint q ∈ seen) := by
        constructor
        · rintro (h1 | h1)
          · exact Or.inl h1
          · rcases List.mem_cons.mp h1 with h2 | h2
            · exact absurd h2 hqf
            · exact Or.inr h2
        · rintro (h1 | h1)
          · exact Or.inl h1
          · exact Or.inr (List.mem_cons_of_mem _ h1)
      by_cases h2 : fingerprint q = "" ∨ fingerprint q ∈ seen
      · rw [if_pos (hiff.mpr h2), if_pos h2]
        exact ih seen
      · rw [if_neg (fun hc => h2 (hiff.mp hc)), if_neg h2]
        congr 1
        have hswap : dedupeAux (fingerprint q :: f :: seen) qs =
            dedupeAux (f :: fingerprint q :: seen) qs :=
          dedupeAux_congr_seen (fun x => by
            simp only [List.mem_cons]
            tauto) qs
        rw [hswap]
        exact ih (fingerprint q :: seen)

theorem dedupeAux_eq_spec_bounded :
    ∀ (n : Nat) (ps : List Paper), ps.length ≤ n →
      ∀ sent, dedupeAux sent ps = dedupeSpec sent ps := by
  intro n
  induction n with
  | zero =>
    intro ps hps sent
    rw [List.length_eq_zero.mp (Nat.le_zero.mp hps)]
    rw [dedupeSpec]
    rfl
  | succ n ih =>
    intro ps hps sent
    cases ps with
    | nil =>
      rw [dedupeSpec]
      rfl
    | cons p qs =>
      rw [dedupeAux, dedupeSpec]
      have hlen : qs.length ≤ n := by
        simp only [List.length_cons] at hps
        omega
      by_cases h1 : fingerprint p ∈ sent
      · rw [if_pos (Or.inr h1), if_pos h1]
        exact ih qs hlen sent
      · rw [if_neg (by
            rintro (h | h)
            exacts [fingerprint_ne_empty p h, h1 h]),
          if_neg h1]
        congr 1
        rw [dedupeAux_cons_seen]
        exact ih _ (le_trans (List.length_filter_le _ _) hlen) sent

theorem dedupe_eq_dedupeSpec (papers : List Paper) (sent : List String) :
    dedupe papers sent = dedupeSpec sent papers :=
  dedupeAux_eq_spec_bounded papers.length papers (le_refl _) sent

theorem insert_desc_perm (key : Paper → Int) (p : Paper) (l : List Paper) :
    List.Perm (insert_desc key p l) (p :: l) := by
  induction l with
  | nil => exact List.Perm.refl _
  | cons q qs ih =>
    rw [insert_desc]
    by_cases h : key q ≤ key p
    · rw [if_pos h]
    · rw [if_neg h]
      exact (ih.cons q).trans (List.Perm.swap p q qs)

theorem sort_desc_perm (key : Paper → Int) (l : List Paper) :
    List.Perm (sort_desc key l) l := by
  induction l with
  | nil => exact List.Perm.refl _
  | cons p ps ih =>
    rw [sort_desc]
    exact (insert_desc_perm key p (sort_desc key ps)).trans (ih.cons p)

theorem fingerprint_set_hits (p : Paper) (a b : Int) :
    fingerprint { p with keyword_hits := a, group_hits := b } =
      fingerprint p := rfl

theorem fingerprint_apply_relevance (p : Paper) (s : Option Int)
    (r : String) : fingerprint (apply_relevance p s r) = fingerprint p :=
  rfl

theorem annotate_stage_fp_sublist (kws : List String)
    (groups : List (List String)) (e1 e2 : List String) (l : List Paper) :
    List.Sublist ((annotate_stage kws groups e1 e2 l).map fingerprint)
      (l.map fingerprint) := by
  induction l with
  | nil => exact List.Sublist.refl _
  | cons p ps ih =>
    rw [annotate_stage]
    by_cases h1 : should_exclude_title p.title e1 = true
    · rw [if_pos h1]
      exact ih.trans (List.sublist_cons_self _ _)
    · rw [if_neg h1]
      by_cases h2 : (e2.any (fun k =>
          substrOf (pyLower k) (pyLower (p.title ++ " " ++ p.abstract))))
            = true
      · rw [if_pos h2]
        exact ih.trans (List.sublist_cons_self _ _)
      · rw [if_neg h2]
        simp only [List.map_cons, fingerprint_set_hits]
        exact ih.cons₂ (fingerprint p)

theorem min_hits_stage_sublist (kws : List String) (mh mg : Int)
    (papers : List Paper) :
    List.Sublist (min_hits_stage kws mh mg papers) papers := by
  unfold min_hits_stage
  by_cases h : (0 : Int) < mg
  · rw [if_pos h]
    exact (List.filter_sublist _).trans (List.filter_sublist _)
  · rw [if_neg h]
    exact List.filter_sublist _

theorem llm_stage_fp_eq (oracle : Paper → Option (Option Int × String))
    (m : Nat) (l : List Paper) :
    (llm_stage oracle m l).map fingerprint = l.map fingerprint := by
  unfold llm_stage
  rw [List.map_append, List.map_map]
  have h1 : (fingerprint ∘ fun p =>
      match oracle p with
      | some (s, r) => apply_relevance p s r
      | none => p) = fingerprint := by
    funext p
    simp only [Function.comp_apply]
    cases ho : oracle p with
    | none => rfl
    | some v => exact fingerprint_apply_relevance p v.1 v.2
  rw [h1, ← List.map_append, List.take_append_drop]

theorem select_final_fp_subperm (sw : List (String × Int)) (client : Bool)
    (mls : Int) (mp : Nat) (l : List Paper) :
    List.Subperm ((select_final sw client mls mp l).map fingerprint)
      (l.map fingerprint) := by
  unfold select_final
  have hsort : List.Perm ((sort_desc (final_score sw) l).map fingerprint)
      (l.map fingerprint) := (sort_desc_perm (final_score sw) l).map _
  by_cases h : client = true ∧ 0 < mls
  · rw [if_pos h]
    refine List.Subperm.trans ?_ hsort.subperm
    exact (((List.take_sublist _ _).trans (List.filter_sublist _)).map
      fingerprint).subperm
  · rw [if_neg h]
    refine List.Subperm.trans ?_ hsort.subperm
    exact ((List.take_sublist _ _).map fingerprint).subperm

theorem run_pipeline_fp_subperm (cfg : Config) (client : Bool)
    (oracle : Paper → Option (Option Int × String))
    (papers : List Paper) (sent : List String) (ws : Int) :
    List.Subperm
      ((run_pipeline cfg client oracle papers sent ws).map fingerprint)
      ((candidate_list papers sent ws).map fingerprint) := by
  unfold run_pipeline
  refine List.Subperm.trans (select_final_fp_subperm _ _ _ _ _) ?_
  have hscored : ((if client then
      llm_stage oracle cfg.max_llm_eval
        (sort_desc (fun p => p.keyword_hits)
          (min_hits_stage cfg.keywords cfg.min_keyword_hits
            cfg.min_groups_matched
            (annotate_stage cfg.keywords cfg.groups cfg.excl_title_starts
              cfg.excl_keywords (candidate_list papers sent ws))))
    else
      sort_desc (fun p => p.keyword_hits)
        (min_hits_stage cfg.keywords cfg.min_keyword_hits
          cfg.min_groups_matched
          (annotate_stage cfg.keywords cfg.groups cfg.excl_title_starts
            cfg.excl_keywords
            (candidate_list papers sent ws)))).map fingerprint) =
      (sort_desc (fun p => p.keyword_hits)
        (min_hits_stage cfg.keywords cfg.min_keyword_hits
          cfg.min_groups_matched
          (annotate_stage cfg.keywords cfg.groups cfg.excl_title_starts
            cfg.excl_keywords
            (candidate_list papers sent ws)))).map fingerprint := by
    by_cases hc : client = true
    · rw [if_pos hc, llm_stage_fp_eq]
    · rw [if_neg hc]
  rw [hscored]
  refine List.Subperm.trans
    ((sort_desc_perm _ _).map fingerprint).subperm ?_
  refine List.Subperm.trans
    (((min_hits_stage_sublist _ _ _ _).map fingerprint).subperm) ?_
  exact (annotate_stage_fp_sublist _ _ _ _ _).subperm

theorem subperm_nodup {l1 l2 : List String} (h : List.Subperm l1 l2)
    (hn : l2.Nodup) : l1.Nodup := by
  obtain ⟨l, hp, hs⟩ := h
  exact hp.nodup (hs.nodup hn)

/-- Claim C10: the deduplicator is idempotent; a second application with
the same previously-sent set returns the first output unchanged. -/
theorem C10_dedupe_idempotent (papers : List Paper) (sent : List String) :
    dedupe (dedupe papers sent) sent = dedupe papers sent :=
  dedupeAux_self _ sent (fun _ hp => mem_dedupeAux_not_seen hp)
    (dedupeAux_map_nodup sent papers)

/-- Claim C3: the deduplicator returns an order-preserving subsequence of
its input, keeping exactly the papers whose fingerprint is neither in the
previously-sent set nor carried by an earlier paper of the input (first
occurrence kept); consequently the fingerprints of the papers emitted by
the whole pipeline are pairwise distinct within the run and absent from
the previously sent set. -/
theorem C3_dedupe_characterization (papers : List Paper)
    (sent : List String) (cfg : Config) (client : Bool)
    (oracle : Paper → Option (Option Int × String)) (ws : Int) :
    dedupe papers sent = dedupeSpec sent papers
    ∧ List.Sublist (dedupe papers sent) papers
    ∧ ((dedupe papers sent).map fingerprint).Nodup
    ∧ (∀ p ∈ dedupe papers sent, fingerprint p ∉ sent)
    ∧ ((run_pipeline cfg client oracle papers sent ws).map
        fingerprint).Nodup
    ∧ (∀ p ∈ run_pipeline cfg client oracle papers sent ws,
        fingerprint p ∉ sent) := by
  have hcand : ((candidate_list papers sent ws).map fingerprint).Nodup :=
    dedupeAux_map_nodup sent _
  have hsub := run_pipeline_fp_subperm cfg client oracle papers sent ws
  refine ⟨dedupe_eq_dedupeSpec papers sent, dedupeAux_sublist sent papers,
    dedupeAux_map_nodup sent papers,
    fun _ hp => mem_dedupeAux_not_seen hp,
    subperm_nodup hsub hcand, ?_⟩
  intro p hp hcs
  have h1 : fingerprint p ∈
      (run_pipeline cfg client oracle papers sent ws).map fingerprint :=
    List.mem_map_of_mem fingerprint hp
  rcases List.mem_map.mp (hsub.subset h1) with ⟨q, hq, hfq⟩
  exact mem_dedupeAux_not_seen hq (by rw [hfq]; exact hcs)

/-- Witness for C3: a kept paper's fingerprint avoids the sent set. -/
theorem C3_dedupe_characterization_witness :
    fingerprint paperT1 ∉ (["x"] : List String) :=
  (C3_dedupe_characterization [paperT1, paperT2] ["x"] {} false
      (fun _ => none) 0).2.2.2.1 paperT1 (by decide)

/-- Claim C2 fails on the code: the window filter runs before the
deduplicator, and the two orders disagree when a duplicate's first
occurrence lies outside the window: with two same-title papers published
at 0 and 10 and window start 5, the code keeps the later one while the
claimed order keeps nothing. -/
theorem C2_counterexample :
    candidate_list [pEarly, pLate] [] 5 ≠
      candidate_list_spec_order [pEarly, pLate] [] 5 := by decide

/-- Claim C2 amended: in every run the time-window filter is applied
first and the deduplicator second, so the candidate list entering the
keyword-filter stages equals the deduplicator applied to the window
filter's output; hence every candidate is inside the window, has a
fingerprint not previously sent, and candidate fingerprints are pairwise
distinct. -/
theorem C2_filter_then_dedupe (papers : List Paper) (sent : List String)
    (ws : Int) :
    candidate_list papers sent ws = dedupe (filter_by_date papers ws) sent
    ∧ (∀ p ∈ candidate_list papers sent ws,
        ws ≤ p.published ∧ fingerprint p ∉ sent)
    ∧ ((candidate_list papers sent ws).map fingerprint).Nodup := by
  refine ⟨rfl, ?_, dedupeAux_map_nodup sent _⟩
  intro p hp
  refine ⟨?_, mem_dedupeAux_not_seen hp⟩
  have hmem : p ∈ filter_by_date papers ws :=
    (dedupeAux_sublist sent (filter_by_date papers ws)).subset hp
  exact of_decide_eq_true (List.mem_filter.mp hmem).2

/-- Witness for the amended C2 at a concrete candidate list. -/
theorem C2_filter_then_dedupe_witness :
    (5 : Int) ≤ pLate.published ∧ fingerprint pLate ∉ ([] : List String) :=
  (C2_filter_then_dedupe [pEarly, pLate] [] 5).2.1 pLate (by decide)

theorem select_final_length_le (sw : List (String × Int)) (client : Bool)
    (mls : Int) (mp : Nat) (l : List Paper) :
    (select_final sw client mls mp l).length ≤ mp := by
  unfold select_final
  rw [List.length_take]
  exact min_le_left _ _

theorem run_pipeline_length_le (cfg : Config) (client : Bool)
    (oracle : Paper → Option (Option Int × String))
    (papers : List Paper) (sent : List String) (ws : Int) :
    (run_pipeline cfg client oracle papers sent ws).length ≤
      cfg.max_papers := by
  unfold run_pipeline
  exact select_final_length_le _ _ _ _ _

/-- Sample paper carrying an LLM relevance score. -/
def paperScored : Paper := { title := "scored", relevance_score := some 5 }

/-- Claim C5: the final selected list never exceeds max_papers; when a
client is in use and a positive minimum LLM relevance score is
configured, every selected paper has a relevance score set and at least
that threshold; with no client the threshold filter is not applied at
all. -/
theorem C5_final_selection (sw : List (String × Int)) (client : Bool)
    (mls : Int) (mp : Nat) (l : List Paper) (cfg : Config)
    (oracle : Paper → Option (Option Int × String))
    (papers : List Paper) (sent : List String) (ws : Int) :
    (select_final sw client mls mp l).length ≤ mp
    ∧ (client = true → 0 < mls →
        ∀ p ∈ select_final sw client mls mp l,
          ∃ s, p.relevance_score = some s ∧ mls ≤ s)
    ∧ (client = false →
        select_final sw client mls mp l =
          (sort_desc (final_score sw) l).take mp)
    ∧ (run_pipeline cfg client oracle papers sent ws).length ≤
        cfg.max_papers := by
  refine ⟨select_final_length_le sw client mls mp l, ?_, ?_,
    run_pipeline_length_le cfg client oracle papers sent ws⟩
  · intro hc hm p hp
    unfold select_final at hp
    rw [if_pos ⟨hc, hm⟩] at hp
    have hmem := (List.take_sublist _ _).subset hp
    have hs := of_decide_eq_true (List.mem_filter.mp hmem).2
    cases hrs : p.relevance_score with
    | none =>
      rw [hrs] at hs
      simp only [Option.getD_none] at hs
      omega
    | some s =>
      rw [hrs] at hs
      simp only [Option.getD_some] at hs
      exact ⟨s, rfl, hs⟩
  · intro hc
    unfold select_final
    rw [if_neg (by simp [hc])]

/-- Witness for C5 at a concrete selection. -/
theorem C5_final_selection_witness :
    ∃ s, paperScored.relevance_score = some s ∧ (1 : Int) ≤ s :=
  (C5_final_selection [] true 1 10 [paperScored] {} (fun _ => none)
      [] [] 0).2.1 rfl (by decide) paperScored (by decide)

/-- Claim C6 fails on the code: the stored relevance score is not
clamped, so a successful call whose reply carries the score 150 stores
150, outside the 0-100 range. -/
theorem C6_counterexample :
    (apply_relevance paperT1 (some 150) ("")).relevance_score = some 150
    ∧ ¬((150 : Int) ≤ 100) := ⟨rfl, by decide⟩

/-- Claim C6 amended: after a successful LLM relevance call the stored
score equals the integer score of the reply (zero when the field is
absent) with no clamping, so it lies within 0 to 100 exactly when that
reply value does. -/
theorem C6_relevance_assignment (p : Paper) (s : Option Int) (r : String) :
    (apply_relevance p s r).relevance_score = some (s.getD 0)
    ∧ (apply_relevance p s r).relevance_reason = some r
    ∧ (0 ≤ s.getD 0 → s.getD 0 ≤ 100 →
        ∀ v, (apply_relevance p s r).relevance_score = some v →
          0 ≤ v ∧ v ≤ 100) := by
  refine ⟨rfl, rfl, ?_⟩
  intro h0 h100 v hv
  have hv2 : some (s.getD 0) = some v := hv
  have h := Option.some.inj hv2
  rw [← h]
  exact ⟨h0, h100⟩

/-- Witness for the amended C6 at a concrete in-range reply. -/
theorem C6_relevance_assignment_witness :
    (0 : Int) ≤ 42 ∧ (42 : Int) ≤ 100 :=
  (C6_relevance_assignment paperT1 (some 42) ("")).2.2 (by decide)
    (by decide) 42 rfl

/-- Claim C7: the minimum-hit stage keeps a paper exactly when its
keyword_hits reach min_keyword_hits or the configured keyword list is
empty (pass-through), and, only when min_groups_matched is positive, its
group_hits also reach min_groups_matched; with no keywords and no
positive group requirement the stage changes nothing. -/
theorem C7_min_hits_stage (kws : List String) (mh mg : Int)
    (papers : List Paper) :
    (∀ p, p ∈ min_hits_stage kws mh mg papers ↔
      p ∈ papers ∧ (kws = [] ∨ mh ≤ p.keyword_hits)
        ∧ (0 < mg → mg ≤ p.group_hits))
    ∧ (kws = [] → mg ≤ 0 → min_hits_stage kws mh mg papers = papers) := by
  constructor
  · intro p
    unfold min_hits_stage
    by_cases hg : (0 : Int) < mg
    · rw [if_pos hg]
      simp only [List.mem_filter, Bool.or_eq_true, decide_eq_true_eq,
        List.isEmpty_iff]
      constructor
      · rintro ⟨⟨hp, h1⟩, h2⟩
        exact ⟨hp, h1.symm, fun _ => h2⟩
      · rintro ⟨hp, h1, h2⟩
        exact ⟨⟨hp, h1.symm⟩, h2 hg⟩
    · rw [if_neg hg]
      simp only [List.mem_filter, Bool.or_eq_true, decide_eq_true_eq,
        List.isEmpty_iff]
      constructor
      · rintro ⟨hp, h1⟩
        exact ⟨hp, h1.symm, fun h => absurd h hg⟩
      · rintro ⟨hp, h1, _⟩
        exact ⟨hp, h1.symm⟩
  · intro hk hg
    unfold min_hits_stage
    rw [if_neg (not_lt.mpr hg)]
    subst hk
    simp

/-- Witness for C7: pass-through with an empty keyword list. -/
theorem C7_min_hits_stage_witness :
    paperT1 ∈ min_hits_stage [] 5 0 [paperT1]
    ∧ min_hits_stage [] 5 0 [paperT1] = [paperT1] :=
  ⟨((C7_min_hits_stage [] 5 0 [paperT1]).1 paperT1).mpr
      ⟨by decide, Or.inl rfl, fun h => absurd h (by decide)⟩,
   (C7_min_hits_stage [] 5 0 [paperT1]).2 rfl (by decide)⟩

theorem length_lastN (n : Nat) (l : List α) :
    (lastN n l).length = min n l.length := by
  unfold lastN
  rw [List.length_reverse, List.length_take, List.length_reverse]

theorem lastN_of_le {n : Nat} {l : List α} (h : l.length ≤ n) :
    lastN n l = l := by
  unfold lastN
  rw [List.take_of_length_le (by rw [List.length_reverse]; exact h),
    List.reverse_reverse]

theorem lastN_append_lastN (n : Nat) (a b : List α) :
    lastN n (lastN n a ++ b) = lastN n (a ++ b) := by
  unfold lastN
  rw [List.reverse_append, List.reverse_reverse, List.reverse_append]
  congr 1
  rw [List.take_append_eq_append_take, List.take_append_eq_append_take]
  congr 1
  rw [List.take_take]
  congr 1
  omega

theorem foldl_update_sent_ids (runs : List (List String)) :
    ∀ s : List String, s.length ≤ 5000 →
      runs.foldl update_sent_ids s = lastN 5000 (s ++ runs.flatten) := by
  induction runs with
  | nil =>
    intro s hs
    rw [List.flatten_nil, List.append_nil, List.foldl_nil, lastN_of_le hs]
  | cons r rs ih =>
    intro s hs
    rw [List.foldl_cons, List.flatten_cons]
    have h1 : update_sent_ids s r = lastN 5000 (s ++ r) := rfl
    rw [h1, ih (lastN 5000 (s ++ r))
        (by rw [length_lastN]; exact min_le_left _ _),
      lastN_append_lastN, List.append_assoc]

/-- Claim C8: the persisted fingerprint list is bounded at 5000 entries
with FIFO eviction: across any sequence of non-dry runs starting from the
empty state it equals the last 5000 of all appended fingerprints in
order, so its length is the minimum of 5000 and the total number ever
appended. -/
theorem C8_sent_ids_bounded (runs : List (List String)) :
    sent_ids_after_runs runs = lastN 5000 runs.flatten
    ∧ (sent_ids_after_runs runs).length =
        min 5000 (runs.map List.length).sum := by
  have h := foldl_update_sent_ids runs [] (by simp)
  rw [List.nil_append] at h
  refine ⟨h, ?_⟩
  unfold sent_ids_after_runs
  rw [h, length_lastN, List.length_flatten]

/-- Claim C9: with the dry-run flag set the run sends no email and never
calls save_state, in both the zero-papers branch and the normal branch,
so the persisted last_run and sent_ids keep their prior values. -/
theorem C9_dry_run_frame (no_email : Bool) (st : RunState)
    (now_iso : String) (papers : List Paper) :
    (finish_run true no_email st now_iso papers).saved = none
    ∧ (finish_run true no_email st now_iso papers).email_sent = false := by
  unfold finish_run
  by_cases h : papers.isEmpty = true
  · rw [if_pos h]
    exact ⟨rfl, by simp⟩
  · rw [if_neg h]
    exact ⟨rfl, by simp⟩

end ResearchFollow
